import Mathlib

/-!
Verification of the folding / view-patching engine of the solid-prism-editor
repository (src/extensions/folding, src/core).  The definitions below are a
shallow embedding of the TypeScript source: JS `Set`s are modelled as lists in
insertion order (JS set iteration order), JS numbers as `Nat`/`Int`, strings as
`List Char`, and `undefined` as `Option.none`.
-/

namespace PrismFolding

/-- A fold range `[start, end)` in unfolded-text offsets, one element of the
`foldedRanges` set of the code-folding extension. -/
abbrev Range := Nat × Nat

/-- The anchor table `foldPositions`: sparse array from line number to the
retained candidate range of that line (`undefined` = `none`). -/
abbrev Table := Nat → Option Range

/-- Mutable state of the folding extension: the `foldedLines` and
`foldedRanges` JS sets, modelled as lists in insertion order. -/
structure FoldState where
  lines : List Nat
  ranges : List Range
deriving Repr, DecidableEq

/-- Reading `foldPositions[line]!`: the source only dereferences entries it
knows exist, so a default is supplied for totality. -/
def anchor (tbl : Table) (line : Nat) : Range := (tbl line).getD (0, 0)

/-- Loop of `getPosition` (folding extension): walks `foldedRanges` in
iteration order carrying the accumulator `result`; returns `-1` from inside
the loop when `pos` falls strictly inside a range. -/
def getPositionGo (pos : Nat) : List Range → Int → Int
  | [], result => result
  | (s, e) :: rest, result =>
    if s < pos then
      if pos < e then -1
      else getPositionGo pos rest (result - ((e : Int) - (s : Int) - 3))
    else getPositionGo pos rest result

/-- Source `getPosition(pos)`: translates a raw offset into folded-view
coordinates, `-1` meaning hidden. -/
def getPosition (ranges : List Range) (pos : Nat) : Int :=
  getPositionGo pos ranges pos

/-- Loop of the inner `addFold` closure of `toggleFold`: scans `foldedRanges`
in iteration order; the first entry whose start is covered by `[s, e)` is
extended in place (start lowered to `s`, end raised to `e` if larger), later
covered entries are deleted; if nothing was extended the new range is
appended. -/
def addFoldGo (s e : Nat) : List Range → Bool → List Range
  | [], expanded => if expanded then [] else [(s, e)]
  | r :: rest, expanded =>
    if s ≤ r.1 ∧ e > r.1 then
      if expanded then addFoldGo s e rest true
      else (s, if e > r.2 then e else r.2) :: addFoldGo s e rest true
    else r :: addFoldGo s e rest expanded

/-- Source `addFold(line)`: runs the add-fold merge for the anchor range of
`line`. -/
def addFoldLine (tbl : Table) (line : Nat) (ranges : List Range) : List Range :=
  addFoldGo (anchor tbl line).1 (anchor tbl line).2 ranges false

/-- Source internal `toggleFold(line)`: if the line is folded, unfold it (find
and delete the range whose start equals the line's anchor start, then replay
`addFold` for every other folded line whose anchor start lies after it, in
`foldedLines` iteration order); otherwise fold it via `addFold`. -/
def toggleFold (tbl : Table) (st : FoldState) (line : Nat) : FoldState :=
  let start := (anchor tbl line).1
  if line ∈ st.lines then
    let lines' := st.lines.erase line
    if st.ranges.any (fun r => r.1 == start) then
      let ranges₁ := st.ranges.eraseP (fun r => r.1 == start)
      let ranges₂ := lines'.foldl
        (fun acc cur => if (anchor tbl cur).1 > start then addFoldLine tbl cur acc else acc)
        ranges₁
      ⟨lines', ranges₂⟩
    else ⟨lines', st.ranges⟩
  else ⟨st.lines ++ [line], addFoldLine tbl line st.ranges⟩

/-- Source public `extensions.folding.toggleFold(lineNumber, force)`: guarded
toggle returning whether a toggle happened.  JS `foldedLines.has(n) != force`
is `true` when `force` is `undefined` (modelled by `none`). -/
def toggleFoldPub (tbl : Table) (st : FoldState) (line : Nat) (force : Option Bool) :
    Bool × FoldState :=
  if (tbl line).isSome then
    if (match force with
        | none => true
        | some b => decide (line ∈ st.lines) != b) then
      (true, toggleFold tbl st line)
    else (false, st)
  else (false, st)

/-- A sequence of internal toggle calls applied in order. -/
def applyToggles (tbl : Table) (st : FoldState) (ls : List Nat) : FoldState :=
  ls.foldl (toggleFold tbl) st

/-- Two ranges are disjoint as half-open intervals. -/
def RangeDisj (a b : Range) : Prop := a.2 ≤ b.1 ∨ b.2 ≤ a.1

instance : DecidableRel RangeDisj := fun a b => by unfold RangeDisj; infer_instance

/-- All ranges in the list are pairwise non-overlapping. -/
def PairwiseDisjoint (ranges : List Range) : Prop := ranges.Pairwise RangeDisj

instance : DecidablePred PairwiseDisjoint := fun l => by
  unfold PairwiseDisjoint; infer_instance

/-- Every range is non-degenerate (`start < end`). -/
def WellFormedRanges (ranges : List Range) : Prop := ∀ r ∈ ranges, r.1 < r.2

instance : DecidablePred WellFormedRanges := fun l => by
  unfold WellFormedRanges; infer_instance

/-- List is sorted ascending by range start. -/
def SortedByStart (ranges : List Range) : Prop := ranges.Pairwise (fun a b => a.1 ≤ b.1)

instance : DecidablePred SortedByStart := fun l => by
  unfold SortedByStart; infer_instance

/-- Offset `p` lies strictly inside some range of the list. -/
def Hidden (ranges : List Range) (pos : Nat) : Prop :=
  ∃ r ∈ ranges, r.1 < pos ∧ pos < r.2

instance : ∀ l p, Decidable (Hidden l p) := fun l p => by
  unfold Hidden; infer_instance

/-- Total placeholder shrinkage at offset `pos`: the sum of `end - start - 3`
over all ranges that lie entirely at or before `pos`. -/
def shrinkSum (ranges : List Range) (pos : Nat) : Int :=
  ((ranges.filter fun r => decide (r.1 < pos ∧ r.2 ≤ pos)).map
    fun r => (r.2 : Int) - (r.1 : Int) - 3).sum

/-- Spec-side offset translation (§4.2 of the spec): `-1` when the offset is
strictly inside a collapsed range, otherwise the offset minus the total
shrinkage of the ranges before it. -/
def specViewOffset (ranges : List Range) (pos : Nat) : Int :=
  if Hidden ranges pos then -1 else (pos : Int) - shrinkSum ranges pos

/-- Shrinkage as worded in claim C10: summed over all ranges with
`end ≤ pos` (no condition on the start). -/
def specShrinkE (ranges : List Range) (pos : Nat) : Int :=
  ((ranges.filter fun r => decide (r.2 ≤ pos)).map
    fun r => (r.2 : Int) - (r.1 : Int) - 3).sum

theorem shrinkSum_cons (r : Range) (rest : List Range) (pos : Nat) :
    shrinkSum (r :: rest) pos =
      (if r.1 < pos ∧ r.2 ≤ pos then (r.2 : Int) - (r.1 : Int) - 3 else 0) +
        shrinkSum rest pos := by
  unfold shrinkSum
  rw [List.filter_cons]
  by_cases h : r.1 < pos ∧ r.2 ≤ pos
  · simp [h]
  · simp [h]

theorem getPositionGo_hidden (pos : Nat) :
    ∀ l : List Range, Hidden l pos → ∀ acc : Int, getPositionGo pos l acc = -1 := by
  intro l
  induction l with
  | nil => rintro ⟨r, hr, -⟩; cases hr
  | cons r rest ih =>
    rintro ⟨x, hx, hx1, hx2⟩ acc
    obtain ⟨s, e⟩ := r
    by_cases hs : s < pos
    · by_cases he : pos < e
      · simp [getPositionGo, hs, he]
      · have hxr : x ∈ rest := by
          rcases List.mem_cons.1 hx with h | h
          · exfalso; apply he; have hx2' := hx2; rw [h] at hx2'; simpa using hx2'
          · exact h
        simp only [getPositionGo, if_pos hs, if_neg he]
        exact ih ⟨x, hxr, hx1, hx2⟩ _
    · have hxr : x ∈ rest := by
        rcases List.mem_cons.1 hx with h | h
        · exfalso; apply hs; have hx1' := hx1; rw [h] at hx1'; simpa using hx1'
        · exact h
      simp only [getPositionGo, if_neg hs]
      exact ih ⟨x, hxr, hx1, hx2⟩ _

theorem getPositionGo_visible (pos : Nat) :
    ∀ l : List Range, ¬ Hidden l pos → ∀ acc : Int,
      getPositionGo pos l acc = acc - shrinkSum l pos := by
  intro l
  induction l with
  | nil => intro _ acc; simp [getPositionGo, shrinkSum]
  | cons r rest ih =>
    intro h acc
    have hrest : ¬ Hidden rest pos := by
      intro ⟨x, hx, hx12⟩; exact h ⟨x, List.mem_cons_of_mem _ hx, hx12⟩
    obtain ⟨s, e⟩ := r
    by_cases hs : s < pos
    · by_cases he : pos < e
      · exact absurd ⟨(s, e), List.mem_cons_self _ _, hs, he⟩ h
      · have hcond : s < pos ∧ e ≤ pos := ⟨hs, Nat.le_of_not_lt he⟩
        simp only [getPositionGo, if_pos hs, if_neg he]
        rw [ih hrest, shrinkSum_cons, if_pos hcond]
        ring
    · have hcond : ¬ (s < pos ∧ e ≤ pos) := fun hc => hs hc.1
      simp only [getPositionGo, if_neg hs]
      rw [ih hrest, shrinkSum_cons, if_neg hcond]
      ring

theorem getPosition_eq_specViewOffset (l : List Range) (pos : Nat) :
    getPosition l pos = specViewOffset l pos := by
  unfold getPosition specViewOffset
  by_cases h : Hidden l pos
  · rw [if_pos h]; exact getPositionGo_hidden pos l h _
  · rw [if_neg h]; exact getPositionGo_visible pos l h _

theorem rangeDisj_symm : Symmetric RangeDisj := by
  intro a b h; exact h.symm

theorem sum_len_le_of_ordered (p : Nat) :
    ∀ l : List Range, ∀ a : Nat, a ≤ p →
      (∀ r ∈ l, a ≤ r.1 ∧ r.1 < r.2 ∧ r.2 ≤ p) →
      l.Pairwise (fun x y => x.2 ≤ y.1) →
      (l.map fun r => (r.2 : Int) - (r.1 : Int)).sum ≤ (p : Int) - (a : Int) := by
  intro l
  induction l with
  | nil =>
    intro a ha _ _
    simp only [List.map_nil, List.sum_nil, sub_nonneg]
    exact_mod_cast ha
  | cons r rest ih =>
    intro a ha hmem hpw
    obtain ⟨har, hr12, hrp⟩ := hmem r (List.mem_cons_self _ _)
    have hrest : ∀ x ∈ rest, r.2 ≤ x.1 ∧ x.1 < x.2 ∧ x.2 ≤ p := by
      intro x hx
      obtain ⟨-, hx12, hxp⟩ := hmem x (List.mem_cons_of_mem _ hx)
      exact ⟨(List.pairwise_cons.1 hpw).1 x hx, hx12, hxp⟩
    have hsum := ih r.2 hrp hrest (List.pairwise_cons.1 hpw).2
    simp only [List.map_cons, List.sum_cons]
    have h1 : (a : Int) ≤ r.1 := by exact_mod_cast har
    have h2 : (r.2 : Int) ≤ p := by exact_mod_cast hrp
    omega

theorem pairwise_ordered_of_disjoint (l : List Range)
    (hwf : WellFormedRanges l) (hdisj : PairwiseDisjoint l)
    (hsort : l.Pairwise fun a b => a.1 ≤ b.1) :
    l.Pairwise fun x y => x.2 ≤ y.1 := by
  have hand := hdisj.and hsort
  refine hand.imp_of_mem ?_
  intro a b ha hb hab
  rcases hab.1 with h | h
  · exact h
  · exact absurd (lt_of_le_of_lt (le_trans h hab.2) (hwf b hb)) (lt_irrefl _)

theorem shrinkSum_le (l : List Range) (pos : Nat)
    (hwf : WellFormedRanges l) (hdisj : PairwiseDisjoint l) :
    shrinkSum l pos ≤ (pos : Int) := by
  set F := l.filter fun r => decide (r.1 < pos ∧ r.2 ≤ pos) with hF
  have hFsub : F.Sublist l := List.filter_sublist l
  have hFwf : ∀ r ∈ F, r.1 < r.2 := fun r hr => hwf r (hFsub.mem hr)
  have hFdisj : F.Pairwise RangeDisj := hdisj.sublist hFsub
  have hFmem : ∀ r ∈ F, r.1 < pos ∧ r.2 ≤ pos := by
    intro r hr
    have := List.of_mem_filter hr
    exact of_decide_eq_true this
  -- sort F ascending by start
  set G := F.mergeSort fun a b => decide (a.1 ≤ b.1) with hG
  have hperm : G.Perm F := List.mergeSort_perm F _
  have hGsort : G.Pairwise fun a b => a.1 ≤ b.1 := by
    have := @List.sorted_mergeSort Range (fun a b : Range => decide (a.1 ≤ b.1))
      (fun a b c hab hbc => by
        simp only [decide_eq_true_eq] at *; omega)
      (fun a b => by
        simp only [Bool.or_eq_true, decide_eq_true_eq]; omega) F
    exact this.imp (fun h => of_decide_eq_true h)
  have hGdisj : G.Pairwise RangeDisj :=
    (List.Perm.pairwise_iff (fun {a b} h => rangeDisj_symm h) hperm).2 hFdisj
  have hGwf : ∀ r ∈ G, r.1 < r.2 := fun r hr => hFwf r (hperm.mem_iff.1 hr)
  have hGmem : ∀ r ∈ G, r.1 < pos ∧ r.2 ≤ pos := fun r hr => hFmem r (hperm.mem_iff.1 hr)
  have hGord := pairwise_ordered_of_disjoint G hGwf hGdisj hGsort
  have hGbound : ∀ r ∈ G, 0 ≤ r.1 ∧ r.1 < r.2 ∧ r.2 ≤ pos := by
    intro r hr; exact ⟨Nat.zero_le _, hGwf r hr, (hGmem r hr).2⟩
  have hsum := sum_len_le_of_ordered pos G 0 (Nat.zero_le _) hGbound hGord
  have hsum' : ((F.map fun r => (r.2 : Int) - (r.1 : Int)).sum) ≤ (pos : Int) := by
    have := (hperm.map fun r : Range => (r.2 : Int) - (r.1 : Int)).sum_eq
    rw [← this]
    simpa using hsum
  have hle : shrinkSum l pos ≤ (F.map fun r => (r.2 : Int) - (r.1 : Int)).sum := by
    unfold shrinkSum
    rw [← hF]
    exact List.sum_le_sum (fun r _ => by omega)
  exact le_trans hle hsum'

theorem specViewOffset_perm (l l' : List Range) (pos : Nat) (hp : l.Perm l') :
    specViewOffset l pos = specViewOffset l' pos := by
  unfold specViewOffset
  have hhid : Hidden l pos ↔ Hidden l' pos := by
    unfold Hidden
    constructor <;> rintro ⟨r, hr, h12⟩
    · exact ⟨r, hp.mem_iff.1 hr, h12⟩
    · exact ⟨r, hp.mem_iff.2 hr, h12⟩
  have hsum : shrinkSum l pos = shrinkSum l' pos := by
    unfold shrinkSum
    exact ((hp.filter _).map _).sum_eq
  by_cases h : Hidden l pos
  · rw [if_pos h, if_pos (hhid.1 h)]
  · rw [if_neg h, if_neg (fun hh => h (hhid.2 hh)), hsum]

theorem shrinkSum_eq_specShrinkE (l : List Range) (pos : Nat)
    (hwf : WellFormedRanges l) : shrinkSum l pos = specShrinkE l pos := by
  unfold shrinkSum specShrinkE
  have hfil : l.filter (fun r => decide (r.1 < pos ∧ r.2 ≤ pos)) =
      l.filter (fun r => decide (r.2 ≤ pos)) := by
    apply List.filter_congr
    intro r hr
    have := hwf r hr
    simp only [decide_eq_decide]
    omega
  rw [hfil]

/-- C2: on a well-formed, pairwise non-overlapping folded set, `getPosition`
returns the HIDDEN sentinel `-1` exactly when the raw offset lies strictly
inside some folded range; otherwise it returns the offset minus
`end - start - 3` for each folded range with `start < offset ∧ end ≤ offset`. -/
theorem claim2_getPosition_hidden_iff (ranges : List Range) (pos : Nat)
    (hwf : WellFormedRanges ranges) (hdisj : PairwiseDisjoint ranges) :
    (getPosition ranges pos = -1 ↔ Hidden ranges pos) ∧
    (¬ Hidden ranges pos →
      getPosition ranges pos = (pos : Int) - shrinkSum ranges pos) := by
  have hvis : ¬ Hidden ranges pos →
      getPosition ranges pos = (pos : Int) - shrinkSum ranges pos :=
    fun h => getPositionGo_visible pos ranges h pos
  refine ⟨⟨?_, fun h => getPositionGo_hidden pos ranges h pos⟩, hvis⟩
  intro h
  by_contra hh
  have h1 := hvis hh
  have h2 := shrinkSum_le ranges pos hwf hdisj
  rw [h1] at h
  omega

/-- Witness for C2 at a concrete folded set: offset 9 is inside `(8, 12)`. -/
theorem claim2_witness :
    (WellFormedRanges [(2, 6), (8, 12)] ∧ PairwiseDisjoint [(2, 6), (8, 12)]) ∧
      (getPosition [(2, 6), (8, 12)] 9 = -1 ↔ Hidden [(2, 6), (8, 12)] 9) :=
  ⟨⟨by decide, by decide⟩,
    (claim2_getPosition_hidden_iff [(2, 6), (8, 12)] 9 (by decide) (by decide)).1⟩

/-- C10: `getPosition` depends only on the set of folded ranges, not on the
iteration order, and agrees with the sorted-walk description: `-1` when some
range strictly contains the offset, otherwise the offset minus the sum of
`end - start - 3` over all ranges with `end ≤ offset`. -/
theorem claim10_getPosition_order_free (l l' : List Range) (pos : Nat)
    (hwf : WellFormedRanges l) (hp : l.Perm l') :
    getPosition l pos = getPosition l' pos ∧
      getPosition l pos =
        (if Hidden l pos then -1 else (pos : Int) - specShrinkE l pos) := by
  constructor
  · rw [getPosition_eq_specViewOffset, getPosition_eq_specViewOffset]
    exact specViewOffset_perm l l' pos hp
  · rw [getPosition_eq_specViewOffset]
    unfold specViewOffset
    rw [shrinkSum_eq_specShrinkE l pos hwf]

/-- Witness for C10 at two enumeration orders of the same two ranges. -/
theorem claim10_witness :
    (WellFormedRanges [(8, 12), (2, 6)] ∧
        ([(8, 12), (2, 6)] : List Range).Perm [(2, 6), (8, 12)]) ∧
      getPosition [(8, 12), (2, 6)] 13 = getPosition [(2, 6), (8, 12)] 13 :=
  ⟨⟨by decide, by decide⟩,
    (claim10_getPosition_order_free [(8, 12), (2, 6)] [(2, 6), (8, 12)] 13
      (by decide) (by decide)).1⟩

theorem addFoldGo_true_eq_filter (s e : Nat) :
    ∀ l : List Range,
      addFoldGo s e l true = l.filter fun r => !decide (s ≤ r.1 ∧ e > r.1) := by
  intro l
  induction l with
  | nil => rfl
  | cons r rest ih =>
    rw [List.filter_cons]
    by_cases h : s ≤ r.1 ∧ e > r.1
    · rw [show addFoldGo s e (r :: rest) true = addFoldGo s e rest true by
        simp [addFoldGo, h], ih, if_neg (by simp [h])]
    · rw [show addFoldGo s e (r :: rest) true = r :: addFoldGo s e rest true by
        simp [addFoldGo, h], ih, if_pos (by simp [h])]

theorem mem_addFoldGo_false (s e : Nat) :
    ∀ (l : List Range) (x : Range), x ∈ addFoldGo s e l false →
      x ∈ l ∨ (x.1 = s ∧ (x.2 = e ∨
        ∃ r ∈ l, (s ≤ r.1 ∧ r.1 < e) ∧ x.2 = (if e > r.2 then e else r.2))) := by
  intro l
  induction l with
  | nil =>
    intro x hx
    simp only [addFoldGo, if_neg Bool.false_ne_true, List.mem_singleton] at hx
    subst hx
    exact Or.inr ⟨rfl, Or.inl rfl⟩
  | cons r rest ih =>
    intro x hx
    by_cases habs : s ≤ r.1 ∧ e > r.1
    · simp only [addFoldGo, if_pos habs, if_neg Bool.false_ne_true,
        addFoldGo_true_eq_filter, List.mem_cons] at hx
      rcases hx with hx | hx
      · subst hx
        exact Or.inr ⟨rfl, Or.inr ⟨r, List.mem_cons_self _ _, ⟨habs.1, habs.2⟩, rfl⟩⟩
      · exact Or.inl (List.mem_cons_of_mem _ ((List.filter_sublist rest).mem hx))
    · simp only [addFoldGo, if_neg habs, List.mem_cons] at hx
      rcases hx with hx | hx
      · exact Or.inl (List.mem_cons.2 (Or.inl hx))
      · rcases ih x hx with h | ⟨h1, h2⟩
        · exact Or.inl (List.mem_cons_of_mem _ h)
        · refine Or.inr ⟨h1, ?_⟩
          rcases h2 with h2 | ⟨r', hr', hcond, heq⟩
          · exact Or.inl h2
          · exact Or.inr ⟨r', List.mem_cons_of_mem _ hr', hcond, heq⟩

theorem addFoldGo_false_invariant (s e : Nat) (hse : s < e) :
    ∀ l : List Range,
      (∀ r ∈ l, r.1 < r.2) → l.Pairwise RangeDisj →
      (∀ r ∈ l, ¬ (r.1 < s ∧ s < r.2)) →
      (∀ r ∈ addFoldGo s e l false, r.1 < r.2) ∧
        (addFoldGo s e l false).Pairwise RangeDisj := by
  intro l
  induction l with
  | nil =>
    intro _ _ _
    constructor
    · intro r hr
      simp only [addFoldGo, if_neg Bool.false_ne_true, List.mem_singleton] at hr
      subst hr
      exact hse
    · simp only [addFoldGo, if_neg Bool.false_ne_true]
      exact List.pairwise_singleton _ _
  | cons r rest ih =>
    intro hwf hdisj hvis
    have hwf_r : r.1 < r.2 := hwf r (List.mem_cons_self _ _)
    have hhead : ∀ x ∈ rest, RangeDisj r x := (List.pairwise_cons.1 hdisj).1
    have hwf' : ∀ x ∈ rest, x.1 < x.2 := fun x hx => hwf x (List.mem_cons_of_mem _ hx)
    have hdisj' : rest.Pairwise RangeDisj := (List.pairwise_cons.1 hdisj).2
    have hvis' : ∀ x ∈ rest, ¬ (x.1 < s ∧ s < x.2) :=
      fun x hx => hvis x (List.mem_cons_of_mem _ hx)
    by_cases habs : s ≤ r.1 ∧ e > r.1
    · simp only [addFoldGo, if_pos habs, if_neg Bool.false_ne_true,
        addFoldGo_true_eq_filter]
      constructor
      · intro x hx
        rcases List.mem_cons.1 hx with hx | hx
        · subst hx
          by_cases h2 : e > r.2 <;> simp only [h2, if_pos, if_neg, if_true, if_false]
          · omega
          · omega
        · exact hwf' x ((List.filter_sublist rest).mem hx)
      · rw [List.pairwise_cons]
        constructor
        · intro x hx
          have hxr : x ∈ rest := (List.filter_sublist rest).mem hx
          have hq : x.1 < s ∨ e ≤ x.1 := by
            have := List.of_mem_filter hx
            simpa using this
          by_cases hx1 : x.1 < s
          · have : x.2 ≤ s := by
              have := hvis' x hxr
              omega
            exact Or.inr this
          · have hex : e ≤ x.1 := by omega
            left
            show (if e > r.2 then e else r.2) ≤ x.1
            have hrx := hhead x hxr
            have hxwf := hwf' x hxr
            have hr2x : r.2 ≤ x.1 := by
              rcases hrx with h | h
              · exact h
              · exfalso; omega
            by_cases hgt : e > r.2
            · rw [if_pos hgt]; omega
            · rw [if_neg hgt]; omega
        · exact hdisj'.sublist (List.filter_sublist rest)
    · simp only [addFoldGo, if_neg habs]
      have ihres := ih hwf' hdisj' hvis'
      constructor
      · intro x hx
        rcases List.mem_cons.1 hx with hx | hx
        · subst hx; exact hwf_r
        · exact ihres.1 x hx
      · rw [List.pairwise_cons]
        refine ⟨?_, ihres.2⟩
        intro x hx
        rcases mem_addFoldGo_false s e rest x hx with hmem | ⟨hx1, hx2⟩
        · exact hhead x hmem
        · by_cases hr1 : r.1 < s
          · have : r.2 ≤ s := by
              have := hvis r (List.mem_cons_self _ _)
              omega
            exact Or.inl (by omega)
          · have hre : e ≤ r.1 := by omega
            right
            show x.2 ≤ r.1
            rcases hx2 with h2 | ⟨r', hr', ⟨hc1, hc2⟩, heq⟩
            · omega
            · have hrr' := hhead r' hr'
              have hr'wf := hwf' r' hr'
              by_cases hgt : e > r'.2
              · rw [heq, if_pos hgt]; omega
              · rw [heq, if_neg hgt]
                rcases hrr' with h | h
                · exfalso; omega
                · omega

/-- Fold-only toggle sequences in which every fold targets an anchored,
currently open line whose anchor start is visible, i.e. not strictly inside
any currently folded range (which is when the UI shows a fold toggle). -/
inductive FoldReach (tbl : Table) : FoldState → Prop where
  | init : FoldReach tbl ⟨[], []⟩
  | fold (st : FoldState) (line s e : Nat) :
      FoldReach tbl st →
      tbl line = some (s, e) →
      line ∉ st.lines →
      (∀ r ∈ st.ranges, ¬ (r.1 < s ∧ s < r.2)) →
      FoldReach tbl (toggleFold tbl st line)

/-- Counterexample to C1 as stated: with the anchor table 1 ↦ (5,25),
2 ↦ (12,22) — realizable over a three-line text of 11-character lines — the
sequence toggleFold 1; toggleFold 2 stores the overlapping set
[(5,25), (12,22)]; with 1 ↦ (10,20), 2 ↦ (0,5) the sequence stores
[(10,20), (0,5)], which is not sorted by start. -/
theorem claim1_counterexample :
    ¬ PairwiseDisjoint (applyToggles
        (fun l => if l = 1 then some (5, 25) else if l = 2 then some (12, 22) else none)
        ⟨[], []⟩ [1, 2]).ranges ∧
      ¬ SortedByStart (applyToggles
        (fun l => if l = 1 then some (10, 20) else if l = 2 then some (0, 5) else none)
        ⟨[], []⟩ [1, 2]).ranges := by
  exact ⟨by decide, by decide⟩

/-- C1 amended: for sequences of `toggleFold` calls that only fold (starting
from the empty state) and in which every fold targets an anchored, open line
whose anchor start is not strictly inside a currently folded range, the
resulting `foldedRanges` set is pairwise non-overlapping (and its entries are
well-formed).  The stored order is insertion order, not sorted order; `update`
sorts explicitly before building the view. -/
theorem claim1_amended_nonoverlap (tbl : Table)
    (hwf : ∀ l r, tbl l = some r → r.1 < r.2) :
    ∀ st : FoldState, FoldReach tbl st →
      WellFormedRanges st.ranges ∧ PairwiseDisjoint st.ranges := by
  intro st h
  induction h with
  | init => exact ⟨fun r hr => absurd hr (List.not_mem_nil r), List.Pairwise.nil⟩
  | fold st line s e _ hline hnot hvis ih =>
    have hanchor : anchor tbl line = (s, e) := by unfold anchor; rw [hline]; rfl
    have hse : s < e := hwf line (s, e) hline
    unfold WellFormedRanges PairwiseDisjoint
    simp only [toggleFold, if_neg hnot]
    unfold addFoldLine
    rw [hanchor]
    exact addFoldGo_false_invariant s e hse st.ranges ih.1 ih.2 hvis

/-- Witness anchor table for C1: two anchored lines with nested ranges whose
starts are on different lines. -/
def tblW1 : Table := fun l =>
  if l = 1 then some (0, 3) else if l = 2 then some (5, 25) else none

/-- Witness for C1 amended, after folding line 1 then line 2 (both visible). -/
theorem claim1_witness :
    WellFormedRanges (toggleFold tblW1 (toggleFold tblW1 ⟨[], []⟩ 1) 2).ranges ∧
      PairwiseDisjoint (toggleFold tblW1 (toggleFold tblW1 ⟨[], []⟩ 1) 2).ranges := by
  have hwf : ∀ l r, tblW1 l = some r → r.1 < r.2 := by
    intro l r h
    unfold tblW1 at h
    split at h
    · cases h; decide
    · split at h
      · cases h; decide
      · cases h
  have h1 : FoldReach tblW1 (toggleFold tblW1 ⟨[], []⟩ 1) :=
    FoldReach.fold _ 1 0 3 FoldReach.init rfl (by decide) (by decide)
  have h2 : FoldReach tblW1 (toggleFold tblW1 (toggleFold tblW1 ⟨[], []⟩ 1) 2) :=
    FoldReach.fold _ 2 5 25 h1 rfl (by decide) (by decide)
  exact claim1_amended_nonoverlap tblW1 hwf _ h2

theorem toggleFold_lines (tbl : Table) (st : FoldState) (line : Nat) :
    (toggleFold tbl st line).lines =
      if line ∈ st.lines then st.lines.erase line else st.lines ++ [line] := by
  unfold toggleFold
  by_cases hmem : line ∈ st.lines
  · simp only [if_pos hmem]
    split <;> rfl
  · simp only [if_neg hmem]

theorem toggleFold_changes (tbl : Table) (st : FoldState) (line : Nat) :
    toggleFold tbl st line ≠ st := by
  intro h
  have hl := congrArg FoldState.lines h
  rw [toggleFold_lines] at hl
  by_cases hmem : line ∈ st.lines
  · rw [if_pos hmem] at hl
    have h1 := List.length_erase_of_mem hmem
    have h2 : 0 < st.lines.length := List.length_pos_of_mem hmem
    have h3 := congrArg List.length hl
    omega
  · rw [if_neg hmem] at hl
    have h3 := congrArg List.length hl
    rw [List.length_append] at h3
    simp at h3

/-- C8: the public `toggleFold` is a no-op returning `false` on a line with no
anchor entry; in general it returns `true` exactly when the state changed;
`force = true` only folds, `force = false` only unfolds, and `force` omitted
always toggles an anchored line. -/
theorem claim8_toggleFoldPub_spec (tbl : Table) (st : FoldState) (line : Nat)
    (force : Option Bool) :
    (tbl line = none → toggleFoldPub tbl st line force = (false, st)) ∧
    ((toggleFoldPub tbl st line force).1 = true ↔
      (toggleFoldPub tbl st line force).2 ≠ st) ∧
    (force = some true → ((toggleFoldPub tbl st line force).1 = true ↔
      (tbl line).isSome ∧ line ∉ st.lines)) ∧
    (force = some false → ((toggleFoldPub tbl st line force).1 = true ↔
      (tbl line).isSome ∧ line ∈ st.lines)) ∧
    (force = none → ((toggleFoldPub tbl st line force).1 = true ↔
      (tbl line).isSome)) := by
  by_cases htbl : (tbl line).isSome
  · have hne := toggleFold_changes tbl st line
    have hts : tbl line ≠ none := by
      intro h; rw [h] at htbl; simp at htbl
    cases force with
    | none =>
      simp only [toggleFoldPub, if_pos htbl]
      refine ⟨fun h => absurd h hts, ?_, ?_, ?_, ?_⟩
      · simp [hne]
      · intro h; cases h
      · intro h; cases h
      · intro _; simp [htbl]
    | some b =>
      simp only [toggleFoldPub, if_pos htbl]
      by_cases hmem : line ∈ st.lines <;> cases b <;>
        refine ⟨fun h => absurd h hts, ?_, ?_, ?_, ?_⟩ <;>
        simp [hmem, hne, htbl]
  · simp only [toggleFoldPub, if_neg htbl]
    refine ⟨fun _ => by simp, ?_, ?_, ?_, ?_⟩
    · simp
    · intro _; simp [htbl]
    · intro _; simp [htbl]
    · intro _; simp [htbl]

/-- Witness for C8: a line with no anchor entry is a no-op returning false. -/
theorem claim8_witness :
    toggleFoldPub (fun _ => none) ⟨[], []⟩ 7 none = (false, ⟨[], []⟩) :=
  (claim8_toggleFoldPub_spec (fun _ => none) ⟨[], []⟩ 7 none).1 rfl

/-- C4: folding line A, then line B whose anchor start lies strictly inside
A's anchor range, then unfolding A leaves exactly B folded with its original
anchor range as the only entry of the folded set. -/
theorem claim4_merge_split_inverse (tbl : Table) (A B sA eA sB eB : Nat)
    (hA : tbl A = some (sA, eA)) (hB : tbl B = some (sB, eB)) (hAB : A ≠ B)
    (h1 : sA < sB) (_h2 : sB < eA) (h3 : sB < eB) :
    applyToggles tbl ⟨[], []⟩ [A, B, A] = ⟨[B], [(sB, eB)]⟩ := by
  have hAnotB : B ∉ ([A] : List Nat) := by
    simp only [List.mem_singleton]
    exact fun h => hAB h.symm
  have e1 : toggleFold tbl ⟨[], []⟩ A = ⟨[A], [(sA, eA)]⟩ := by
    unfold toggleFold addFoldLine anchor
    rw [hA]
    simp [addFoldGo]
  have e2 : toggleFold tbl ⟨[A], [(sA, eA)]⟩ B = ⟨[A, B], [(sA, eA), (sB, eB)]⟩ := by
    unfold toggleFold addFoldLine anchor
    rw [hB]
    simp only [Option.getD_some, if_neg hAnotB]
    have hadd : addFoldGo sB eB [(sA, eA)] false = [(sA, eA), (sB, eB)] := by
      simp only [addFoldGo]
      rw [if_neg (by simp; omega)]
      rfl
    rw [hadd]
    rfl
  have e3 : toggleFold tbl ⟨[A, B], [(sA, eA), (sB, eB)]⟩ A = ⟨[B], [(sB, eB)]⟩ := by
    unfold toggleFold
    have hmem : A ∈ ([A, B] : List Nat) := List.mem_cons_self _ _
    rw [if_pos hmem]
    have hanchorA : anchor tbl A = (sA, eA) := by unfold anchor; rw [hA]; rfl
    have hanchorB : anchor tbl B = (sB, eB) := by unfold anchor; rw [hB]; rfl
    have herase : ([A, B] : List Nat).erase A = [B] := by
      simp [List.erase_cons_head]
    rw [hanchorA, herase]
    have hany : (([(sA, eA), (sB, eB)] : List Range).any
        (fun r => r.1 == sA)) = true := by simp
    rw [if_pos hany]
    have heraseP : ([(sA, eA), (sB, eB)] : List Range).eraseP
        (fun r => r.1 == sA) = [(sB, eB)] := by
      rw [List.eraseP_cons_of_pos]
      simp
    rw [heraseP]
    simp only [List.foldl_cons, List.foldl_nil, hanchorB]
    rw [if_pos (by omega : (sB, eB).1 > sA)]
    unfold addFoldLine
    rw [hanchorB]
    have hadd : addFoldGo sB eB [(sB, eB)] false = [(sB, eB)] := by
      simp only [addFoldGo]
      rw [if_pos (by simp; omega)]
      simp
    rw [hadd]
  show toggleFold tbl (toggleFold tbl (toggleFold tbl ⟨[], []⟩ A) B) A = _
  rw [e1, e2, e3]

/-- Witness for C4 at a concrete anchor table: A = line 1 with range (2,30),
B = line 2 with range (12,22) (12 lies strictly inside (2,30)). -/
theorem claim4_witness :
    applyToggles
        (fun l => if l = 1 then some (2, 30) else if l = 2 then some (12, 22) else none)
        ⟨[], []⟩ [1, 2, 1] = ⟨[2], [(12, 22)]⟩ :=
  claim4_merge_split_inverse
    (fun l => if l = 1 then some (2, 30) else if l = 2 then some (12, 22) else none)
    1 2 2 30 12 22 rfl rfl (by decide) (by decide) (by decide) (by decide)

theorem addFoldGo_false_of_no_abs (s e : Nat) :
    ∀ l : List Range, (∀ r ∈ l, ¬ (s ≤ r.1 ∧ e > r.1)) →
      addFoldGo s e l false = l ++ [(s, e)] := by
  intro l
  induction l with
  | nil => intro _; rfl
  | cons r rest ih =>
    intro h
    have hr := h r (List.mem_cons_self _ _)
    simp only [addFoldGo, if_neg hr, List.cons_append]
    rw [ih (fun x hx => h x (List.mem_cons_of_mem _ hx))]

theorem foldl_no_replay (tbl : Table) (start : Nat) :
    ∀ (ls : List Nat) (acc : List Range), (∀ M ∈ ls, ¬ ((anchor tbl M).1 > start)) →
      ls.foldl (fun acc cur =>
        if (anchor tbl cur).1 > start then addFoldLine tbl cur acc else acc) acc = acc := by
  intro ls
  induction ls with
  | nil => intro acc _; rfl
  | cons M rest ih =>
    intro acc h
    simp only [List.foldl_cons, if_neg (h M (List.mem_cons_self _ _))]
    exact ih acc (fun x hx => h x (List.mem_cons_of_mem _ hx))

theorem erase_append_singleton_perm {α : Type} [BEq α] [LawfulBEq α] (a : α) :
    ∀ l : List α, a ∈ l → ((l.erase a) ++ [a]).Perm l := by
  intro l
  induction l with
  | nil => intro h; cases h
  | cons b rest ih =>
    intro h
    by_cases hb : (b == a) = true
    · have hba : b = a := eq_of_beq hb
      subst hba
      rw [List.erase_cons_head]
      exact List.perm_append_singleton _ _
    · rw [List.erase_cons_tail hb]
      have hmem : a ∈ rest := by
        rcases List.mem_cons.1 h with h | h
        · exact absurd (by rw [h]; exact beq_self_eq_true b) hb
        · exact h
      rw [List.cons_append]
      exact (ih hmem).cons b

theorem not_mem_eraseP_start_unique (s e : Nat) :
    ∀ l : List Range, (∀ r ∈ l, r.1 = s → r = (s, e)) → l.count (s, e) ≤ 1 →
      (s, e) ∉ l.eraseP (fun r => r.1 == s) := by
  intro l
  induction l with
  | nil => intro _ _ h; cases h
  | cons r rest ih =>
    intro huniq hcount
    by_cases hr : r.1 = s
    · have hre : r = (s, e) := huniq r (List.mem_cons_self _ _) hr
      subst hre
      rw [List.eraseP_cons_of_pos (by simp)]
      rw [List.count_cons_self] at hcount
      exact List.count_eq_zero.1 (by omega)
    · rw [List.eraseP_cons_of_neg (by simp [hr])]
      intro hc
      rcases List.mem_cons.1 hc with hc | hc
      · exact hr (by rw [← hc])
      · have hcount' : rest.count (s, e) ≤ 1 := le_trans (List.count_le_count_cons _ _ _) hcount
        exact ih (fun x hx => huniq x (List.mem_cons_of_mem _ hx)) hcount' hc

theorem eraseP_start_unique_perm (s e : Nat) :
    ∀ l : List Range, (s, e) ∈ l → (∀ r ∈ l, r.1 = s → r = (s, e)) →
      ((l.eraseP (fun r => r.1 == s)) ++ [(s, e)]).Perm l := by
  intro l
  induction l with
  | nil => intro h; cases h
  | cons r rest ih =>
    intro hmem huniq
    by_cases hr : r.1 = s
    · have hre : r = (s, e) := huniq r (List.mem_cons_self _ _) hr
      subst hre
      rw [List.eraseP_cons_of_pos (by simp)]
      exact List.perm_append_singleton _ _
    · rw [List.eraseP_cons_of_neg (by simp [hr])]
      have hmem' : (s, e) ∈ rest := by
        rcases List.mem_cons.1 hmem with h | h
        · exact absurd (by rw [← h]) hr
        · exact h
      rw [List.cons_append]
      exact (ih hmem' (fun x hx => huniq x (List.mem_cons_of_mem _ hx))).cons r

/-- Counterexample to C3 as stated: from the starting state FoldedLines = {},
FoldedSet = {(10,20)} with line 3 anchored at (5,25), toggling line 3 twice
yields the empty fold set: the first toggle absorbs (10,20) into (5,25) and
the second deletes the merged range with no folded line left to replay. -/
theorem claim3_counterexample :
    applyToggles (fun l => if l = 3 then some (5, 25) else none)
        ⟨[], [(10, 20)]⟩ [3, 3] ≠ ⟨[], [(10, 20)]⟩ := by decide

/-- C3 amended: toggling an anchored line `L` twice restores `FoldedLines` and
`FoldedSet` up to permutation (i.e. as sets of values) provided every folded
line's anchor start and every stored range start is at most `L`'s anchor
start, and — when `L` is currently folded — the unique range starting at
`L`'s anchor start is exactly `L`'s anchor range.  For other starting states
the unfold replay loop can rewrite the set (see the counterexample). -/
theorem claim3_amended_double_toggle (tbl : Table) (st : FoldState) (L sL eL : Nat)
    (hL : tbl L = some (sL, eL)) (_hwfL : sL < eL)
    (hnodup : st.lines.Nodup)
    (hlines : ∀ M ∈ st.lines, (anchor tbl M).1 ≤ sL)
    (hcase : (L ∉ st.lines ∧ ∀ r ∈ st.ranges, r.1 < sL) ∨
      (L ∈ st.lines ∧ (sL, eL) ∈ st.ranges ∧ st.ranges.count (sL, eL) = 1 ∧
        (∀ r ∈ st.ranges, r.1 = sL → r = (sL, eL)) ∧ ∀ r ∈ st.ranges, r.1 ≤ sL)) :
    (applyToggles tbl st [L, L]).lines.Perm st.lines ∧
      (applyToggles tbl st [L, L]).ranges.Perm st.ranges := by
  have hanchor : anchor tbl L = (sL, eL) := by unfold anchor; rw [hL]; rfl
  have hanchor1 : (anchor tbl L).1 = sL := by rw [hanchor]
  have hanchor2 : (anchor tbl L).2 = eL := by rw [hanchor]
  have happ : applyToggles tbl st [L, L] = toggleFold tbl (toggleFold tbl st L) L := rfl
  rcases hcase with ⟨hmem, hlt⟩ | ⟨hmem, hrmem, hcount, huniq, hle⟩
  · -- L open: fold then unfold restores the state exactly
    have e1 : toggleFold tbl st L = ⟨st.lines ++ [L], st.ranges ++ [(sL, eL)]⟩ := by
      simp only [toggleFold, if_neg hmem]
      unfold addFoldLine
      rw [hanchor1, hanchor2, addFoldGo_false_of_no_abs sL eL st.ranges
        (fun r hr => by have := hlt r hr; omega)]
    have hLmem : L ∈ st.lines ++ [L] := List.mem_append_right _ (List.mem_singleton.2 rfl)
    have e2 : toggleFold tbl ⟨st.lines ++ [L], st.ranges ++ [(sL, eL)]⟩ L = st := by
      simp only [toggleFold, hanchor1]
      rw [if_pos hLmem]
      have herase : (st.lines ++ [L]).erase L = st.lines := by
        rw [List.erase_append_right _ hmem, List.erase_cons_head, List.append_nil]
      have hany : ((st.ranges ++ [(sL, eL)]).any fun r => r.1 == sL) = true := by
        rw [List.any_eq_true]
        exact ⟨(sL, eL), List.mem_append_right _ (List.mem_singleton.2 rfl), by simp⟩
      rw [herase, if_pos hany]
      have heraseP : (st.ranges ++ [(sL, eL)]).eraseP (fun r => r.1 == sL) = st.ranges := by
        rw [List.eraseP_append_right _ (fun r hr => by
          have := hlt r hr; simp only [beq_iff_eq]; omega)]
        rw [List.eraseP_cons_of_pos (by simp)]
        exact List.append_nil _
      rw [heraseP, foldl_no_replay tbl sL st.lines st.ranges
        (fun M hM => by have := hlines M hM; omega)]
    rw [happ, e1, e2]
    exact ⟨List.Perm.refl _, List.Perm.refl _⟩
  · -- L folded: unfold then refold restores both sets up to permutation
    have e1 : toggleFold tbl st L =
        ⟨st.lines.erase L, st.ranges.eraseP (fun r => r.1 == sL)⟩ := by
      simp only [toggleFold, hanchor1]
      rw [if_pos hmem]
      have hany : (st.ranges.any fun r => r.1 == sL) = true := by
        rw [List.any_eq_true]
        exact ⟨(sL, eL), hrmem, by simp⟩
      rw [if_pos hany, foldl_no_replay tbl sL (st.lines.erase L) _
        (fun M hM => by have := hlines M (List.mem_of_mem_erase hM); omega)]
    have hnotmem : L ∉ st.lines.erase L := by
      intro hc
      exact absurd ((hnodup.mem_erase_iff.1 hc).1) (by simp)
    have hgone : (sL, eL) ∉ st.ranges.eraseP (fun r => r.1 == sL) :=
      not_mem_eraseP_start_unique sL eL st.ranges huniq (le_of_eq hcount)
    have e2 : toggleFold tbl ⟨st.lines.erase L, st.ranges.eraseP (fun r => r.1 == sL)⟩ L =
        ⟨st.lines.erase L ++ [L],
          st.ranges.eraseP (fun r => r.1 == sL) ++ [(sL, eL)]⟩ := by
      simp only [toggleFold]
      rw [if_neg hnotmem]
      unfold addFoldLine
      rw [hanchor1, hanchor2, addFoldGo_false_of_no_abs sL eL _ ?_]
      intro r hr hc
      have hr' : r ∈ st.ranges := (List.eraseP_sublist _).mem hr
      have hrle := hle r hr'
      have hreq : r.1 = sL := Nat.le_antisymm hrle hc.1
      exact hgone (huniq r hr' hreq ▸ hr)
    rw [happ, e1, e2]
    constructor
    · exact erase_append_singleton_perm L st.lines hmem
    · exact eraseP_start_unique_perm sL eL st.ranges hrmem huniq

/-- Witness anchor table for C3: line 1 anchored at (0,3), line 3 at (5,25). -/
def tblW3 : Table := fun l =>
  if l = 1 then some (0, 3) else if l = 3 then some (5, 25) else none

/-- Witness for C3 amended: from a state with line 1 folded over (0,3),
toggling line 3 twice restores both sets. -/
theorem claim3_witness :
    (applyToggles tblW3 ⟨[1], [(0, 3)]⟩ [3, 3]).lines.Perm [1] ∧
      (applyToggles tblW3 ⟨[1], [(0, 3)]⟩ [3, 3]).ranges.Perm [(0, 3)] :=
  claim3_amended_double_toggle tblW3 ⟨[1], [(0, 3)]⟩ 3 5 25 rfl (by decide) (by decide)
    (by decide) (Or.inl ⟨by decide, by decide⟩)

/-- Option-valued JS array access with a possibly negative index (negative or
out-of-bounds access yields `undefined`, modelled by `none`). -/
def getAt (l : List String) (i : Int) : Option String :=
  if i < 0 then none else l.get? i.toNat

/-- Forward cursor of the render-effect line diff (editor core): advance while
`newLines[start] == prevLines[start] && start < end1`.  JS out-of-bounds reads
give `undefined`, and `undefined == undefined` is true, which the `Option`
equality reproduces. -/
def fwdScan (prev next : List String) (e1 start : Nat) : Nat :=
  if h : next.get? start = prev.get? start ∧ start < e1 then
    fwdScan prev next e1 (start + 1)
  else start
termination_by e1 - start
decreasing_by omega

/-- Backward cursor of the render-effect line diff:
`while (end1 && newLines[--end1] == prevLines[--end2]);` — both cursors are
decremented before the comparison, and also when the comparison fails. -/
def bwdScan (prev next : List String) (e1 : Nat) (e2 : Int) : Nat × Int :=
  if h : e1 = 0 then (e1, e2)
  else if next.get? (e1 - 1) = getAt prev (e2 - 1) then
    bwdScan prev next (e1 - 1) (e2 - 1)
  else (e1 - 1, e2 - 1)
termination_by e1
decreasing_by omega

/-- Result of the line diff: final cursor values and whether the degenerate
single-line in-place replacement (`start == end1 && start == end2`) fires. -/
structure DiffResult where
  start : Nat
  end1 : Nat
  end2 : Int
  single : Bool
deriving Repr, DecidableEq

/-- The render-effect line diff of the editor core: prefix scan bounded by the
new line count, suffix scan from both tails, degenerate single-line check. -/
def lineDiff (prev next : List String) : DiffResult :=
  let start := fwdScan prev next next.length 0
  let p := bwdScan prev next next.length (prev.length : Int)
  ⟨start, p.1, p.2, decide (start = p.1) && decide ((start : Int) = p.2)⟩

theorem fwdScan_reaches (prev next : List String) (k : Nat)
    (hk : k < next.length) (hdiff : next.get? k ≠ prev.get? k)
    (hsame : ∀ i, i ≠ k → next.get? i = prev.get? i) :
    ∀ d j, k - j = d → j ≤ k → fwdScan prev next next.length j = k := by
  intro d
  induction d with
  | zero =>
    intro j hd hj
    have hjk : j = k := by omega
    subst hjk
    rw [fwdScan, dif_neg (fun hc => hdiff hc.1)]
  | succ n ih =>
    intro j hd hj
    have hjk : j < k := by omega
    rw [fwdScan, dif_pos ⟨hsame j (by omega), by omega⟩]
    exact ih (j + 1) (by omega) (by omega)

theorem bwdScan_reaches (prev next : List String) (k : Nat)
    (hdiff : next.get? k ≠ prev.get? k)
    (hsame : ∀ i, i ≠ k → next.get? i = prev.get? i) :
    ∀ d m, m - k - 1 = d → k < m →
      bwdScan prev next m (m : Int) = (k, (k : Int)) := by
  intro d
  induction d with
  | zero =>
    intro m hd hm
    have hmk : m = k + 1 := by omega
    subst hmk
    rw [bwdScan, dif_neg (by omega : ¬ k + 1 = 0)]
    have hget : getAt prev ((k + 1 : Nat) - 1 : Int) = prev.get? k := by
      unfold getAt
      rw [if_neg (by omega)]
      norm_num
    rw [if_neg (by
      rw [hget]
      simpa using hdiff)]
    have h1 : k + 1 - 1 = k := by omega
    have h2 : ((k + 1 : Nat) : Int) - 1 = (k : Int) := by push_cast; ring
    rw [h1, h2]
  | succ n ih =>
    intro m hd hm
    have hm1 : m - 1 ≠ k := by omega
    have hget : getAt prev ((m : Int) - 1) = prev.get? (m - 1) := by
      unfold getAt
      rw [if_neg (by omega)]
      congr 1
      omega
    rw [bwdScan, dif_neg (by omega : ¬ m = 0)]
    rw [if_pos (by rw [hget]; exact hsame (m - 1) hm1)]
    have hcast : (m : Int) - 1 = ((m - 1 : Nat) : Int) := by omega
    rw [hcast]
    exact ih (m - 1) (by omega) (by omega)

/-- C6: on two line arrays of equal length that differ exactly at index `k`,
the prefix/suffix diff stops both cursors at `k`, the degenerate check fires,
and a single-line in-place replacement of exactly line `k` (region
`[k, k+1)`) is performed. -/
theorem claim6_single_line_diff (prev next : List String) (k : Nat)
    (hlen : prev.length = next.length) (hk : k < next.length)
    (hdiff : next.get? k ≠ prev.get? k)
    (hsame : ∀ i, i ≠ k → next.get? i = prev.get? i) :
    lineDiff prev next = ⟨k, k, (k : Int), true⟩ := by
  unfold lineDiff
  have hfwd := fwdScan_reaches prev next k hk hdiff hsame (k - 0) 0 rfl (Nat.zero_le _)
  have hbwd := bwdScan_reaches prev next k hdiff hsame (next.length - k - 1)
    next.length rfl hk
  rw [hlen, hfwd, hbwd]
  simp

/-- Witness for C6: arrays of length 3 differing exactly at index 1. -/
theorem claim6_witness :
    lineDiff ["a", "b", "c"] ["a", "x", "c"] = ⟨1, 1, (1 : Int), true⟩ := by
  apply claim6_single_line_diff
  · rfl
  · decide
  · decide
  · intro i hi
    match i with
    | 0 => rfl
    | 1 => exact absurd rfl hi
    | 2 => rfl
    | n + 3 => rfl

/-- Three-space placeholder appended by `update` for each folded range (the
source concatenates a string of three spaces; the dots are drawn by CSS). -/
def placeholder : List Char := [' ', ' ', ' ']

/-- numLines from the editor core: one plus the number of newline characters
at indices `i` with `a ≤ i < b` (the JS loop walks successive `indexOf` hits
starting at `a` and counts a newline at index `i` exactly when `i + 1 ≤ b`). -/
def numLines (str : List Char) (a b : Nat) : Nat :=
  1 + ((str.take b).drop a).count '\n'

/-- isMultiline from the folding extension: `str.slice(start, end)` contains
a newline. -/
def isMultiline (str : List Char) (s e : Nat) : Bool :=
  ((str.take e).drop s).contains '\n'

/-- JS `value.indexOf(pat, position) == position`: `pat` occurs at exactly
`position` in `value`. -/
def startsWithAt (value pat : List Char) (position : Nat) : Bool :=
  (value.drop position).take pat.length == pat

/-- Length of the string after JS `trimEnd` (trailing whitespace removed). -/
def trimmedLength (l : List Char) : Nat :=
  (l.reverse.dropWhile Char.isWhitespace).length

mutual
/-- A Prism token: either a plain string (no type, no alias) or a token object
with a type, an optional alias, a length and its content. -/
inductive Tok where
  | plain : List Char → Tok
  | node : List Char → Option (List Char) → Nat → TokContent → Tok
/-- Token content: raw text or a nested token stream. -/
inductive TokContent where
  | txt : List Char → TokContent
  | sub : List Tok → TokContent
end

/-- JS `token.length` (for a plain string, the string length). -/
def tokLength : Tok → Nat
  | .plain t => t.length
  | .node _ _ len _ => len

/-- JS `token.alias || token.type`; plain strings have neither (`undefined`,
modelled as the empty string, which matches no keyword). -/
def tokAliasType : Tok → List Char
  | .plain _ => []
  | .node ty al _ _ => al.getD ty

/-- JS `token.type` (`undefined` → empty for plain strings). -/
def tokType : Tok → List Char
  | .plain _ => []
  | .node ty _ _ _ => ty

/-- JS `token.alias` as an option. -/
def tokAlias : Tok → Option (List Char)
  | .plain _ => none
  | .node _ al _ _ => al

/-- Token content when it is an array (else empty). -/
def tokChildren : Tok → List Tok
  | .node _ _ _ (.sub ts) => ts
  | _ => []

/-- Token content when it is a string (else empty). -/
def tokText : Tok → List Char
  | .node _ _ _ (.txt s) => s
  | _ => []

mutual
/-- One step of `findBlockComments` (blockCommentFolding provider): a
multi-line comment token beginning with the language's opening block-comment
delimiter emits the range between the delimiters; otherwise the walk recurses
into array content, rewriting the language on `language-<name>` aliases. -/
def findBlockTok (delims : List Char → Option (List Char × List Char))
    (value : List Char) (t : Tok) (position : Nat) (language : List Char) :
    List (Nat × Nat) :=
  if tokAliasType t = "comment".toList ∧
      isMultiline value position (position + tokLength t) then
    match delims language with
    | some dp =>
      if startsWithAt value dp.1 position then
        [(position + dp.1.length, position + tokLength t - dp.2.length)]
      else []
    | none => []
  else
    match t with
    | .node _ _ _ (.sub children) =>
      findBlockList delims value children position
        (if (tokAliasType t).take 9 = "language-".toList
         then (tokAliasType t).drop 9 else language)
    | _ => []

/-- The loop of `findBlockComments` over a token stream, advancing the
position by each token's length. -/
def findBlockList (delims : List Char → Option (List Char × List Char))
    (value : List Char) (ts : List Tok) (position : Nat) (language : List Char) :
    List (Nat × Nat) :=
  match ts with
  | [] => []
  | t :: rest =>
    findBlockTok delims value t position language ++
      findBlockList delims value rest (position + tokLength t) language
end

/-- The blockCommentFolding provider: walks the token tree from position 0 in
the editor's language. -/
def blockCommentFolding (delims : List Char → Option (List Char × List Char))
    (value : List Char) (language : List Char) (tokens : List Tok) :
    List (Nat × Nat) :=
  findBlockList delims value tokens 0 language

/-- Outputs of the bracket and tag matchers consumed by `createFolds`:
`tags` holds `(tags[i][1], tags[i][2])`, `brackets` holds
`(brackets[i][1], brackets[i][3])`, and each `pairs[i]` is the partner index
or `undefined`. -/
structure MatcherData where
  tags : List (Nat × Nat)
  tagPairs : List (Option Nat)
  brackets : List (Nat × List Char)
  bracketPairs : List (Option Nat)

/-- Body of the tag loop of `createFolds` at index `i`: a matched pair
`(i, j)` with `j > i` spanning multiple lines pushes
`(tags[i][2], tags[j][1])`. -/
def tagFoldAt (value : List Char) (tags : List (Nat × Nat))
    (pairs : List (Option Nat)) (i : Nat) : Option (Nat × Nat) :=
  match pairs.getD i none with
  | some j =>
    if i < j ∧ isMultiline value (tags.getD i (0, 0)).2 (tags.getD j (0, 0)).1 then
      some ((tags.getD i (0, 0)).2, (tags.getD j (0, 0)).1)
    else none
  | none => none

/-- Conditionally push the loop-body result for index `i` onto the fold list. -/
def pushSome {α : Type} (g : Nat → Option α) (i : Nat) (acc : List α) : List α :=
  match g i with
  | some y => y :: acc
  | none => acc

/-- Tag-pair folds of `createFolds`, in loop order. -/
def tagFolds (value : List Char) (tags : List (Nat × Nat))
    (pairs : List (Option Nat)) : List (Nat × Nat) :=
  (List.range pairs.length).foldr (pushSome (tagFoldAt value tags pairs)) []

/-- Body of the bracket loop of `createFolds` at index `i`: a matched pair
`(i, j)` with `j > i`, an opening delimiter other than `(`, spanning multiple
lines, pushes `(brackets[i][1] + brackets[i][3].length, brackets[j][1])`. -/
def bracketFoldAt (value : List Char) (brackets : List (Nat × List Char))
    (pairs : List (Option Nat)) (i : Nat) : Option (Nat × Nat) :=
  match pairs.getD i none with
  | some j =>
    if i < j ∧ (brackets.getD i (0, [])).2 ≠ ['('] ∧
        isMultiline value (brackets.getD i (0, [])).1 (brackets.getD j (0, [])).1 then
      some ((brackets.getD i (0, [])).1 + (brackets.getD i (0, [])).2.length,
        (brackets.getD j (0, [])).1)
    else none
  | none => none

/-- Bracket-pair folds of `createFolds`, in loop order. -/
def bracketFolds (value : List Char) (brackets : List (Nat × List Char))
    (pairs : List (Option Nat)) : List (Nat × Nat) :=
  (List.range pairs.length).foldr (pushSome (bracketFoldAt value brackets pairs)) []

/-- External fold providers run after the built-ins and see the accumulated
fold list (`providers.forEach(clb => folds.push(...clb(editor, folds)))`). -/
def runProviders (providers : List (List (Nat × Nat) → List (Nat × Nat)))
    (builtin : List (Nat × Nat)) : List (Nat × Nat) :=
  providers.foldl (fun folds p => folds ++ p folds) builtin

/-- One step of the `createFolds` reduction: write candidate `r` into the
anchor table at its anchor line `numLines(value, 0, start)` unless an entry
with a greater-or-equal end is already there.  No validity check is performed
on the candidate. -/
def collectStep (value : List Char) (tbl : Table) (r : Nat × Nat) : Table :=
  let index := numLines value 0 r.1
  match tbl index with
  | none => fun n => if n = index then some r else tbl n
  | some prev =>
    if r.2 > prev.2 then (fun n => if n = index then some r else tbl n) else tbl

/-- Reduction of `createFolds`: group candidates by anchor line, retaining per
line the candidate with the greatest end. -/
def collectTable (value : List Char) (folds : List (Nat × Nat)) : Table :=
  folds.foldl (collectStep value) (fun _ => none)

/-- The `createFolds` pass: built-in tag and bracket extractors, then
providers, then the per-anchor-line reduction into `foldPositions`. -/
def createFolds (value : List Char) (md : MatcherData)
    (providers : List (List (Nat × Nat) → List (Nat × Nat))) : Table :=
  collectTable value
    (runProviders providers
      (tagFolds value md.tags md.tagPairs ++
        bracketFolds value md.brackets md.bracketPairs))

/-- View-text loop of `update`: for each sorted range append
`code.slice(pos, start)` and the placeholder, then the remainder. -/
def buildViewGo (code : List Char) : Nat → List Range → List Char
  | pos, [] => code.drop pos
  | pos, (s, e) :: rest =>
    ((code.take s).drop pos) ++ placeholder ++ buildViewGo code e rest

/-- The explicit sort `[...foldedRanges].sort((a, b) => a[0] - b[0])` done by
`update` (stable, ascending by start). -/
def sortRanges (ranges : List Range) : List Range :=
  ranges.mergeSort fun a b => decide (a.1 ≤ b.1)

/-- The view text built by `update`. -/
def updateValue (code : List Char) (ranges : List Range) : List Char :=
  buildViewGo code 0 (sortRanges ranges)

/-- Observable state of the folding facade: the stored full code and the view
text written to the textarea. -/
structure Facade where
  code : List Char
  view : List Char
deriving Repr, DecidableEq

/-- Effect of `updateFolds()` → `update()` on the facade: the view text is
rebuilt; the stored code is untouched, so `fullCode` keeps returning it. -/
def facadeUpdate (f : Facade) (ranges : List Range) : Facade :=
  ⟨f.code, updateValue f.code ranges⟩

/-- Replace the half-open region `[s, e)` of `text` with the placeholder. -/
def replaceOne (text : List Char) (s e : Nat) : List Char :=
  text.take s ++ placeholder ++ text.drop e

/-- Spec-side view text: the full text with every folded range replaced by the
3-character placeholder (ranges are substituted rightmost-first so that the
offsets of the remaining ranges stay valid). -/
def specView (code : List Char) (ranges : List Range) : List Char :=
  ranges.foldr (fun r acc => replaceOne acc r.1 r.2) code

theorem isMultiline_lt {value : List Char} {s e : Nat}
    (h : isMultiline value s e = true) : s < e := by
  by_contra hc
  unfold isMultiline at h
  rw [List.drop_eq_nil_of_le
    (le_trans (List.length_take_le e value) (Nat.le_of_not_lt hc))] at h
  simp [List.contains] at h

theorem isMultiline_newline {value : List Char} {s e : Nat}
    (h : isMultiline value s e = true) :
    ∃ k, s ≤ k ∧ k < e ∧ value.get? k = some '\n' := by
  unfold isMultiline at h
  have hmem : '\n' ∈ (value.take e).drop s := by
    simpa [List.contains] using h
  rcases List.mem_iff_get?.1 hmem with ⟨i, hi⟩
  have hbound : i < ((value.take e).drop s).length := by
    rcases List.get?_eq_some.1 hi with ⟨h1, -⟩
    exact h1
  rw [List.get?_drop] at hi
  have hise : s + i < e := by
    have h1 := List.length_drop s (value.take e)
    have h2 := List.length_take_le e value
    omega
  rw [List.get?_take hise] at hi
  exact ⟨s + i, Nat.le_add_right _ _, hise, hi⟩

theorem tagFoldAt_wf (value : List Char) (tags : List (Nat × Nat))
    (pairs : List (Option Nat)) (i : Nat) (r : Range)
    (h : tagFoldAt value tags pairs i = some r) : r.1 < r.2 := by
  unfold tagFoldAt at h
  cases hp : pairs.getD i none with
  | none => rw [hp] at h; exact absurd h (by simp)
  | some j =>
    rw [hp] at h
    dsimp only at h
    by_cases hc : i < j ∧
        isMultiline value (tags.getD i (0, 0)).2 (tags.getD j (0, 0)).1 = true
    · rw [if_pos hc] at h
      cases h
      exact isMultiline_lt hc.2
    · rw [if_neg hc] at h
      cases h

theorem bracketFoldAt_wf (value : List Char) (brackets : List (Nat × List Char))
    (pairs : List (Option Nat)) (i : Nat) (r : Range)
    (hbr : ∀ b ∈ brackets, startsWithAt value b.2 b.1 = true ∧ '\n' ∉ b.2)
    (h : bracketFoldAt value brackets pairs i = some r) : r.1 < r.2 := by
  unfold bracketFoldAt at h
  cases hp : pairs.getD i none with
  | none => rw [hp] at h; exact absurd h (by simp)
  | some j =>
    rw [hp] at h
    dsimp only at h
    by_cases hc : i < j ∧ (brackets.getD i (0, [])).2 ≠ ['('] ∧
        isMultiline value (brackets.getD i (0, [])).1 (brackets.getD j (0, [])).1 = true
    · rw [if_pos hc] at h
      cases h
      rcases isMultiline_newline hc.2.2 with ⟨k, hk1, hk2, hk⟩
      show (brackets.getD i (0, [])).1 + (brackets.getD i (0, [])).2.length <
        (brackets.getD j (0, [])).1
      suffices hsuff : (brackets.getD i (0, [])).1 +
          (brackets.getD i (0, [])).2.length ≤ k by omega
      by_contra hlt
      by_cases hib : i < brackets.length
      · have hmem : brackets.getD i (0, []) ∈ brackets := by
          rw [List.getD_eq_get?, List.get?_eq_get hib]
          exact List.get_mem _ _ _
        obtain ⟨hstart, hnl⟩ := hbr _ hmem
        have heq : (value.drop (brackets.getD i (0, [])).1).take
            (brackets.getD i (0, [])).2.length = (brackets.getD i (0, [])).2 := by
          unfold startsWithAt at hstart
          exact eq_of_beq hstart
        have hki : k - (brackets.getD i (0, [])).1 < (brackets.getD i (0, [])).2.length := by
          omega
        have hget : (brackets.getD i (0, [])).2.get?
            (k - (brackets.getD i (0, [])).1) = some '\n' := by
          rw [← heq, List.get?_take hki, List.get?_drop]
          have heqk : (brackets.getD i (0, [])).1 + (k - (brackets.getD i (0, [])).1) = k := by
            omega
          rw [heqk]
          exact hk
        exact hnl (List.get?_mem hget)
      · have hdef : brackets.getD i (0, []) = (0, []) := by
          rw [List.getD_eq_get?, List.get?_eq_none.2 (by omega)]
          rfl
        rw [hdef] at hlt hk1
        simp at hlt hk1
    · rw [if_neg hc] at h
      cases h

theorem mem_foldr_emit {α : Type} (g : Nat → Option α) :
    ∀ (ls : List Nat) (x : α),
      x ∈ ls.foldr (pushSome g) [] → ∃ i, g i = some x := by
  intro ls
  induction ls with
  | nil => intro x hx; cases hx
  | cons i rest ih =>
    intro x hx
    simp only [List.foldr_cons, pushSome] at hx
    cases hg : g i with
    | none => rw [hg] at hx; exact ih x hx
    | some y =>
      rw [hg] at hx
      rcases List.mem_cons.1 hx with h | h
      · exact ⟨i, by rw [hg, h]⟩
      · exact ih x h

theorem collectTable_entry (value : List Char) :
    ∀ (folds : List (Nat × Nat)) (tbl₀ : Table) (i : Nat) (r : Range),
      (folds.foldl (collectStep value) tbl₀) i = some r →
      tbl₀ i = some r ∨ r ∈ folds := by
  intro folds
  induction folds with
  | nil => intro tbl₀ i r h; exact Or.inl h
  | cons f rest ih =>
    intro tbl₀ i r h
    simp only [List.foldl_cons] at h
    rcases ih (collectStep value tbl₀ f) i r h with h0 | hmem
    · simp only [collectStep] at h0
      cases htb : tbl₀ (numLines value 0 f.1) with
      | none =>
        rw [htb] at h0
        simp only at h0
        by_cases hi : i = numLines value 0 f.1
        · rw [if_pos hi] at h0; cases h0; exact Or.inr (List.mem_cons_self _ _)
        · rw [if_neg hi] at h0; exact Or.inl h0
      | some prev =>
        rw [htb] at h0
        simp only at h0
        by_cases hgt : f.2 > prev.2
        · rw [if_pos hgt] at h0
          by_cases hi : i = numLines value 0 f.1
          · rw [if_pos hi] at h0; cases h0; exact Or.inr (List.mem_cons_self _ _)
          · rw [if_neg hi] at h0; exact Or.inl h0
        · rw [if_neg hgt] at h0; exact Or.inl h0
    · exact Or.inr (List.mem_cons_of_mem _ hmem)

/-- Counterexample to C7 as stated: an external provider returning the
malformed range (5, 3) is not dropped — it is written into the anchor table
(line 1 of "hello world") and the line becomes foldable through the public
toggle. -/
theorem claim7_counterexample :
    createFolds "hello world".toList ⟨[], [], [], []⟩ [fun _ => [(5, 3)]] 1 =
        some (5, 3) ∧
      (toggleFoldPub (createFolds "hello world".toList ⟨[], [], [], []⟩
        [fun _ => [(5, 3)]]) ⟨[], []⟩ 1 none).1 = true :=
  ⟨rfl, rfl⟩

/-- C7 amended: the built-in tag and bracket extractors only emit ranges with
`start < end` (the multi-line requirement guarantees it, given that each
recorded bracket text actually occurs at its position and contains no
newline), so with built-ins alone no malformed range reaches the anchor
table; ranges from external providers are not validated (see the
counterexample). -/
theorem claim7_amended_builtins_validate (value : List Char) (md : MatcherData)
    (hbr : ∀ b ∈ md.brackets, startsWithAt value b.2 b.1 = true ∧ '\n' ∉ b.2) :
    (∀ r ∈ tagFolds value md.tags md.tagPairs ++
        bracketFolds value md.brackets md.bracketPairs, r.1 < r.2) ∧
      ∀ i r, createFolds value md [] i = some r → r.1 < r.2 := by
  have hwf : ∀ r ∈ tagFolds value md.tags md.tagPairs ++
      bracketFolds value md.brackets md.bracketPairs, r.1 < r.2 := by
    intro r hr
    rcases List.mem_append.1 hr with h | h
    · unfold tagFolds at h
      rcases mem_foldr_emit (tagFoldAt value md.tags md.tagPairs) _ r h with ⟨i, hi⟩
      exact tagFoldAt_wf value md.tags md.tagPairs i r hi
    · unfold bracketFolds at h
      rcases mem_foldr_emit (bracketFoldAt value md.brackets md.bracketPairs) _ r h
        with ⟨i, hi⟩
      exact bracketFoldAt_wf value md.brackets md.bracketPairs i r hbr hi
  refine ⟨hwf, ?_⟩
  intro i r h
  unfold createFolds runProviders collectTable at h
  simp only [List.foldl_nil] at h
  rcases collectTable_entry value _ _ i r h with h0 | hmem
  · cases h0
  · exact hwf r hmem

/-- Witness text for C7: an opening brace, a newline, a closing brace. -/
def valW7 : List Char := ['{', '\n', '}']

/-- Witness matcher data for C7: one multi-line brace pair over `valW7`. -/
def mdW7 : MatcherData := ⟨[], [], [(0, ['{']), (2, ['}'])], [some 1, none]⟩

/-- Witness for C7 amended: the emitted brace fold (1, 2) is well-formed. -/
theorem claim7_witness :
    ((1, 2) ∈ tagFolds valW7 mdW7.tags mdW7.tagPairs ++
        bracketFolds valW7 mdW7.brackets mdW7.bracketPairs) ∧ (1 : Nat) < 2 :=
  ⟨by decide,
    (claim7_amended_builtins_validate valW7 mdW7 (by decide)).1 (1, 2) (by decide)⟩

theorem specView_take (code : List Char) :
    ∀ (ranges : List Range) (s : Nat), s ≤ code.length →
      (∀ r ∈ ranges, s ≤ r.1 ∧ r.1 < r.2 ∧ r.2 ≤ code.length) →
      (specView code ranges).take s = code.take s := by
  intro ranges
  induction ranges with
  | nil => intro s _ _; rfl
  | cons r rest ih =>
    intro s hs hmem
    obtain ⟨hsr, hr12, hrlen⟩ := hmem r (List.mem_cons_self _ _)
    have hmem' : ∀ x ∈ rest, s ≤ x.1 ∧ x.1 < x.2 ∧ x.2 ≤ code.length :=
      fun x hx => hmem x (List.mem_cons_of_mem _ hx)
    have hVs := ih s hs hmem'
    have hVlen : s ≤ (specView code rest).length := by
      have h1 := congrArg List.length hVs
      rw [List.length_take, List.length_take] at h1
      omega
    show (replaceOne (specView code rest) r.1 r.2).take s = code.take s
    unfold replaceOne
    have hph : placeholder.length = 3 := rfl
    rw [List.take_append_of_le_length
        (by rw [List.length_append, List.length_take]; omega),
      List.take_append_of_le_length (by rw [List.length_take]; omega),
      List.take_take]
    have hmin : s ⊓ r.1 = s := by omega
    rw [hmin, hVs]

theorem buildViewGo_eq_specView (code : List Char) :
    ∀ (ranges : List Range) (pos : Nat),
      ranges.Pairwise (fun a b => a.2 ≤ b.1) →
      (∀ r ∈ ranges, r.1 < r.2 ∧ r.2 ≤ code.length) →
      (∀ r ∈ ranges, pos ≤ r.1) →
      buildViewGo code pos ranges = (specView code ranges).drop pos := by
  intro ranges
  induction ranges with
  | nil => intro pos _ _ _; rfl
  | cons r rest ih =>
    intro pos hord hwf hpos
    obtain ⟨hr12, hrlen⟩ := hwf r (List.mem_cons_self _ _)
    have hordrest : ∀ x ∈ rest, r.2 ≤ x.1 := (List.pairwise_cons.1 hord).1
    have hwf' : ∀ x ∈ rest, x.1 < x.2 ∧ x.2 ≤ code.length :=
      fun x hx => hwf x (List.mem_cons_of_mem _ hx)
    have hIH := ih r.2 (List.pairwise_cons.1 hord).2 hwf' hordrest
    have hrest1 : ∀ x ∈ rest, r.1 ≤ x.1 := fun x hx => by
      have := hordrest x hx; omega
    have hVtake : (specView code rest).take r.1 = code.take r.1 :=
      specView_take code rest r.1 (by omega)
        (fun x hx => ⟨hrest1 x hx, hwf' x hx⟩)
    have hVlen : r.1 ≤ (specView code rest).length := by
      have h1 := congrArg List.length hVtake
      rw [List.length_take, List.length_take] at h1
      omega
    have hposr := hpos r (List.mem_cons_self _ _)
    show (code.take r.1).drop pos ++ placeholder ++ buildViewGo code r.2 rest =
      (replaceOne (specView code rest) r.1 r.2).drop pos
    unfold replaceOne
    have hph : placeholder.length = 3 := rfl
    rw [List.drop_append_of_le_length
        (by rw [List.length_append, List.length_take]; omega),
      List.drop_append_of_le_length (by rw [List.length_take]; omega)]
    rw [hVtake, hIH]

/-- C5 amended (general part): for a well-formed, pairwise non-overlapping,
in-bounds fold set, `update` rebuilds the textarea value as the full text
with every folded range replaced, in ascending order of start, by the
3-character placeholder (three spaces), and the stored full code — what
`fullCode` returns — is unchanged. -/
theorem claim5_amended_view (f : Facade) (ranges : List Range)
    (hwf : WellFormedRanges ranges) (hdisj : PairwiseDisjoint ranges)
    (hbound : ∀ r ∈ ranges, r.2 ≤ f.code.length) :
    (facadeUpdate f ranges).code = f.code ∧
      (facadeUpdate f ranges).view = specView f.code (sortRanges ranges) := by
  refine ⟨rfl, ?_⟩
  show updateValue f.code ranges = specView f.code (sortRanges ranges)
  unfold updateValue
  set G := sortRanges ranges with hG
  have hperm : G.Perm ranges := List.mergeSort_perm ranges _
  have hGsort : G.Pairwise fun a b => a.1 ≤ b.1 := by
    have := @List.sorted_mergeSort Range (fun a b : Range => decide (a.1 ≤ b.1))
      (fun a b c hab hbc => by
        simp only [decide_eq_true_eq] at *; omega)
      (fun a b => by
        simp only [Bool.or_eq_true, decide_eq_true_eq]; omega) ranges
    exact this.imp (fun h => of_decide_eq_true h)
  have hGwf : ∀ r ∈ G, r.1 < r.2 := fun r hr => hwf r (hperm.mem_iff.1 hr)
  have hGdisj : G.Pairwise RangeDisj :=
    (List.Perm.pairwise_iff (fun {a b} h => rangeDisj_symm h) hperm).2 hdisj
  have hGord := pairwise_ordered_of_disjoint G hGwf hGdisj hGsort
  have hres := buildViewGo_eq_specView f.code G 0 hGord
    (fun r hr => ⟨hGwf r hr, hbound r (hperm.mem_iff.1 hr)⟩)
    (fun r _ => Nat.zero_le _)
  rw [hres, List.drop_zero]

/-- Scenario block-comment delimiters: `/*`, `*/` for language `c`. -/
def scDelims : List Char → Option (List Char × List Char) :=
  fun lang => if lang = "c".toList then some ("/*".toList, "*/".toList) else none

/-- Scenario text of the spec. -/
def scCode : List Char := "A\n/* x\ny */\nB".toList

/-- Scenario token stream: the block comment token spans offsets 2 to 11. -/
def scToks : List Tok :=
  [Tok.plain "A\n".toList,
   Tok.node "comment".toList none 9 (TokContent.txt "/* x\ny */".toList),
   Tok.plain "\nB".toList]

/-- Counterexample to C5's scenario: the candidate range for the block comment
is its interior (4, 9) — between, not including, the delimiters — so folding
it yields the view "A\n/*   */\nB" (three-space placeholder, delimiters still
visible), not "A\n...\nB". -/
theorem claim5_counterexample :
    blockCommentFolding scDelims scCode "c".toList scToks = [(4, 9)] ∧
      (toggleFold (collectTable scCode
          (blockCommentFolding scDelims scCode "c".toList scToks))
        ⟨[], []⟩ 2).ranges = [(4, 9)] ∧
      updateValue scCode [(4, 9)] ≠ "A\n...\nB".toList := by
  refine ⟨by decide, by decide, ?_⟩
  intro hc
  rw [updateValue, sortRanges, List.mergeSort_singleton] at hc
  exact absurd hc (by decide)

/-- Witness for C5 amended at the spec scenario: folding the comment interior
(4, 9) keeps the full code and produces the view "A\n/*   */\nB". -/
theorem claim5_witness :
    (facadeUpdate ⟨scCode, scCode⟩ [(4, 9)]).code = scCode ∧
      (facadeUpdate ⟨scCode, scCode⟩ [(4, 9)]).view =
        specView scCode (sortRanges [(4, 9)]) ∧
      (facadeUpdate ⟨scCode, scCode⟩ [(4, 9)]).view = "A\n/*   */\nB".toList := by
  have h := claim5_amended_view ⟨scCode, scCode⟩ [(4, 9)]
    (by decide) (by decide) (by decide)
  refine ⟨h.1, h.2, ?_⟩
  show updateValue scCode [(4, 9)] = _
  rw [updateValue, sortRanges, List.mergeSort_singleton]
  decide

/-- State of the markdownFolding walk: current position, the sparse
`openTitles` array, the `levels` register (`undefined` until the first title),
and the emitted folds.  A fold start of `none` models the JS `undefined` read
from a never-written `openTitles` slot. -/
structure MdState where
  pos : Nat
  openTitles : Nat → Option Nat
  levels : Option Nat
  folds : List (Option Nat × Nat)

/-- closeTitles(level) of markdownFolding: pushes `[openTitles[j], end]` for
every index `j` from `level` up to the `levels` register, with `end` the
trimmed length of the text before the current position; a no-op while
`levels` is still undefined (`level <= undefined` is false in JS).  Neither
`levels` nor `openTitles` entries are cleared. -/
def closeTitles (value : List Char) (st : MdState) (level : Nat) : MdState :=
  match st.levels with
  | none => st
  | some lv =>
    if level ≤ lv then
      { st with folds := st.folds ++ ((List.range (lv + 1 - level)).map
          (fun k => (st.openTitles (level + k), trimmedLength (value.take st.pos)))) }
    else st

/-- Heading level of a title token:
`token1.type ? token1.length - 1 : token2.content[0] == "=" ? 0 : 1`. -/
def titleLevel (t : Tok) : Nat :=
  let t1 := (tokChildren t).getD 0 (Tok.plain [])
  let t2 := (tokChildren t).getD 1 (Tok.plain [])
  if tokType t1 ≠ [] then tokLength t1 - 1
  else if (tokText t2).getD 0 ' ' = '=' then 0 else 1

/-- Fold start recorded for a title token:
`pos + (token1.type ? length : token1.length - 1)`. -/
def titleStart (t : Tok) (pos : Nat) : Nat :=
  let t1 := (tokChildren t).getD 0 (Tok.plain [])
  pos + (if tokType t1 ≠ [] then tokLength t else tokLength t1 - 1)

/-- Fold pushed for an alias-free "code" token (fenced code block):
`[pos + content[0].length + (content[1].content || "").length,`
` pos + length - content[content.length - 1].length - 1]`. -/
def codeBlockFold (t : Tok) (pos : Nat) : Option Nat × Nat :=
  let cs := tokChildren t
  let c0 := cs.getD 0 (Tok.plain [])
  let c1 := cs.getD 1 (Tok.plain [])
  let cl := cs.getD (cs.length - 1) (Tok.plain [])
  (some (pos + tokLength c0 + (tokText c1).length),
    pos + tokLength t - tokLength cl - 1)

/-- One iteration of the markdownFolding token loop. -/
def mdStep (value : List Char) (st : MdState) (t : Tok) : MdState :=
  let st₁ :=
    if tokType t = "code".toList ∧ tokAlias t = none then
      { st with folds := st.folds ++ [codeBlockFold t st.pos] }
    else st
  let st₂ :=
    if tokType t = "title".toList then
      let st' := closeTitles value st₁ (titleLevel t)
      { st' with
        openTitles := fun n =>
          if n = titleLevel t then some (titleStart t st'.pos) else st'.openTitles n,
        levels := some (titleLevel t) }
    else st₁
  { st₂ with pos := st₂.pos + tokLength t }

/-- The markdownFolding provider: processes the token stream, then closes all
remaining titles at level 0; only active for markdown. -/
def markdownFolding (value language : List Char) (tokens : List Tok) :
    List (Option Nat × Nat) :=
  if language = "markdown".toList ∨ language = "md".toList then
    (closeTitles value (tokens.foldl (mdStep value) ⟨0, fun _ => none, none, []⟩) 0).folds
  else []

/-- Spec-side open-title state: the currently open titles as (level, start)
pairs, kept ascending by level. -/
structure SpecMdState where
  pos : Nat
  opens : List (Nat × Nat)
  folds : List (Option Nat × Nat)

/-- Spec-side description of the title walk (spec §4.1): a heading at level L
emits one fold per open title of level ≥ L, ending at the trimmed length of
the text before the heading, removes those titles and opens the new one. -/
def specMdStep (value : List Char) (st : SpecMdState) (t : Tok) : SpecMdState :=
  if tokType t = "title".toList then
    { pos := st.pos + tokLength t,
      opens := st.opens.filter (fun p => decide (p.1 < titleLevel t)) ++
        [(titleLevel t, titleStart t st.pos)],
      folds := st.folds ++
        (st.opens.filter (fun p => decide (titleLevel t ≤ p.1))).map
          (fun p => (some p.2, trimmedLength (value.take st.pos))) }
  else { st with pos := st.pos + tokLength t }

/-- Spec-side markdown title folds: walk the stream, then close every
remaining open title at the end of the document. -/
def specMarkdownFolds (value : List Char) (tokens : List Tok) :
    List (Option Nat × Nat) :=
  let st := tokens.foldl (specMdStep value) ⟨0, [], []⟩
  st.folds ++ st.opens.map (fun p => (some p.2, trimmedLength (value.take st.pos)))

/-- No heading level is skipped upward: each title's level is at most one more
than the previous title's level, and the first title has level 0. -/
def noSkip (lv : Option Nat) : List Tok → Bool
  | [] => true
  | t :: rest =>
    if tokType t = "title".toList then
      decide (titleLevel t ≤ (match lv with | none => 0 | some v => v + 1)) &&
        noSkip (some (titleLevel t)) rest
    else noSkip lv rest

/-- Relation between the code walk and the spec walk: positions and emitted
folds agree, and the open spec titles are exactly levels 0..levels with the
starts recorded in `openTitles`. -/
def MdInv (c : MdState) (s : SpecMdState) : Prop :=
  c.pos = s.pos ∧ c.folds = s.folds ∧
    ((c.levels = none ∧ s.opens = []) ∨
      (∃ (lv : Nat) (f : Nat → Nat), c.levels = some lv ∧
        s.opens = (List.range (lv + 1)).map (fun j => (j, f j)) ∧
        ∀ j, j ≤ lv → c.openTitles j = some (f j)))

theorem closeTitles_pos (value : List Char) (st : MdState) (level : Nat) :
    (closeTitles value st level).pos = st.pos := by
  unfold closeTitles
  split
  · rfl
  · split <;> rfl

theorem closeTitles_openTitles (value : List Char) (st : MdState) (level : Nat) :
    (closeTitles value st level).openTitles = st.openTitles := by
  unfold closeTitles
  split
  · rfl
  · split <;> rfl

theorem closeTitles_folds_none (value : List Char) (st : MdState) (level : Nat)
    (h : st.levels = none) : (closeTitles value st level).folds = st.folds := by
  unfold closeTitles
  rw [h]

theorem closeTitles_folds_some (value : List Char) (st : MdState) (level lv : Nat)
    (h : st.levels = some lv) :
    (closeTitles value st level).folds =
      if level ≤ lv then
        st.folds ++ ((List.range (lv + 1 - level)).map
          (fun k => (st.openTitles (level + k), trimmedLength (value.take st.pos))))
      else st.folds := by
  unfold closeTitles
  rw [h]
  dsimp only
  by_cases hle : level ≤ lv
  · rw [if_pos hle, if_pos hle]
  · rw [if_neg hle, if_neg hle]

theorem range_filter_ge (L : Nat) :
    ∀ n : Nat, (List.range n).filter (fun j => decide (L ≤ j)) =
      List.range' L (n - L) := by
  intro n
  induction n with
  | zero => simp
  | succ n ih =>
    rw [List.range_succ, List.filter_append, ih]
    by_cases h : L ≤ n
    · have h1 : List.filter (fun j => decide (L ≤ j)) [n] = [n] := by simp [h]
      have h2 : n + 1 - L = (n - L) + 1 := by omega
      have h3 : L + 1 * (n - L) = n := by omega
      rw [h1, h2, List.range'_concat, h3]
    · have h1 : List.filter (fun j => decide (L ≤ j)) [n] = [] := by simp [h]
      have h2 : n + 1 - L = 0 := by omega
      have h3 : n - L = 0 := by omega
      rw [h1, h2, h3]
      simp

theorem range_filter_lt (L : Nat) :
    ∀ n : Nat, L ≤ n → (List.range n).filter (fun j => decide (j < L)) =
      List.range L := by
  intro n
  induction n with
  | zero =>
    intro h
    have hL : L = 0 := by omega
    subst hL
    simp
  | succ n ih =>
    intro h
    rw [List.range_succ, List.filter_append]
    by_cases hL : L ≤ n
    · rw [ih hL]
      have h1 : List.filter (fun j => decide (j < L)) [n] = [] := by
        simp only [List.filter]
        rw [decide_eq_false (by omega)]
      rw [h1, List.append_nil]
    · have hLn : L = n + 1 := by omega
      have h1 : List.filter (fun j => decide (j < L)) (List.range n) = List.range n := by
        apply List.filter_eq_self.2
        intro j hj
        have := List.mem_range.1 hj
        simp only [decide_eq_true_eq]
        omega
      have h2 : List.filter (fun j => decide (j < L)) [n] = [n] := by
        simp only [List.filter]
        rw [decide_eq_true (by omega)]
      rw [h1, h2, hLn, List.range_succ]

theorem mdStep_title_inv (value : List Char) (t : Tok) (c : MdState) (s : SpecMdState)
    (ht : tokType t = "title".toList)
    (hnc : ¬ (tokType t = "code".toList ∧ tokAlias t = none))
    (hbound : titleLevel t ≤ (match c.levels with | none => 0 | some v => v + 1))
    (hinv : MdInv c s) :
    MdInv (mdStep value c t) (specMdStep value s t) ∧
      (mdStep value c t).levels = some (titleLevel t) := by
  obtain ⟨hpos, hfolds, hd⟩ := hinv
  have hstep : mdStep value c t =
      { pos := c.pos + tokLength t,
        openTitles := fun n =>
          if n = titleLevel t then some (titleStart t c.pos) else c.openTitles n,
        levels := some (titleLevel t),
        folds := (closeTitles value c (titleLevel t)).folds } := by
    simp only [mdStep]
    rw [if_neg hnc, if_pos ht]
    simp only [closeTitles_pos, closeTitles_openTitles]
  have hspec : specMdStep value s t =
      { pos := s.pos + tokLength t,
        opens := s.opens.filter (fun p => decide (p.1 < titleLevel t)) ++
          [(titleLevel t, titleStart t s.pos)],
        folds := s.folds ++
          (s.opens.filter (fun p => decide (titleLevel t ≤ p.1))).map
            (fun p => (some p.2, trimmedLength (value.take s.pos))) } := by
    unfold specMdStep
    rw [if_pos ht]
  rw [hstep, hspec]
  refine ⟨⟨by dsimp only; rw [hpos], ?_, ?_⟩, rfl⟩
  · -- folds agree
    show (closeTitles value c (titleLevel t)).folds = s.folds ++
      (s.opens.filter (fun p => decide (titleLevel t ≤ p.1))).map
        (fun p => (some p.2, trimmedLength (value.take s.pos)))
    rcases hd with ⟨hlev, hopen⟩ | ⟨lv, f, hlev, hopens, hot⟩
    · rw [closeTitles_folds_none value c _ hlev, hopen]
      simp [hfolds]
    · rw [closeTitles_folds_some value c _ lv hlev]
      rw [hopens, List.filter_map, List.map_map]
      have hcomp : ((fun p : Nat × Nat => decide (titleLevel t ≤ p.1)) ∘
          fun j => (j, f j)) = fun j => decide (titleLevel t ≤ j) := rfl
      rw [hcomp, range_filter_ge, List.range'_eq_map_range, List.map_map]
      by_cases hle : titleLevel t ≤ lv
      · rw [if_pos hle, hfolds, hpos]
        congr 1
        apply List.map_congr_left
        intro k hk
        have hk' := List.mem_range.1 hk
        have : titleLevel t + k ≤ lv := by omega
        simp only [Function.comp]
        rw [hot (titleLevel t + k) this]
      · rw [if_neg hle, hfolds]
        have h0 : lv + 1 - titleLevel t = 0 := by omega
        rw [h0]
        simp
  · -- open-set invariant after the new title
    rcases hd with ⟨hlev, hopen⟩ | ⟨lv, f, hlev, hopens, hot⟩
    · have hb0 : titleLevel t ≤ 0 := by rw [hlev] at hbound; exact hbound
      have hL0 : titleLevel t = 0 := by omega
      refine Or.inr ⟨0, fun _ => titleStart t s.pos, by dsimp only; rw [hL0], ?_, ?_⟩
      · dsimp only
        rw [hopen, hL0]
        rfl
      · intro j hj
        have hj0 : j = 0 := by omega
        dsimp only
        rw [hj0, hL0, hpos]
        simp
    · have hble : titleLevel t ≤ lv + 1 := by rw [hlev] at hbound; exact hbound
      refine Or.inr ⟨titleLevel t,
        fun j => if j = titleLevel t then titleStart t s.pos else f j, rfl, ?_, ?_⟩
      · dsimp only
        rw [hopens, List.filter_map]
        have hcomp : ((fun p : Nat × Nat => decide (p.1 < titleLevel t)) ∘
            fun j => (j, f j)) = fun j => decide (j < titleLevel t) := rfl
        rw [hcomp, range_filter_lt _ _ (by omega)]
        rw [List.range_succ, List.map_append]
        congr 1
        · apply List.map_congr_left
          intro j hj
          have := List.mem_range.1 hj
          rw [if_neg (by omega)]
        · simp
      · intro j hj
        dsimp only
        by_cases hjL : j = titleLevel t
        · rw [if_pos hjL, hjL, if_pos rfl, hpos]
        · rw [if_neg hjL, if_neg hjL]
          exact hot j (by omega)

theorem mdStep_other_inv (value : List Char) (t : Tok) (c : MdState) (s : SpecMdState)
    (hnt : ¬ tokType t = "title".toList)
    (hnc : ¬ (tokType t = "code".toList ∧ tokAlias t = none))
    (hinv : MdInv c s) :
    MdInv (mdStep value c t) (specMdStep value s t) ∧
      (mdStep value c t).levels = c.levels := by
  obtain ⟨hpos, hfolds, hd⟩ := hinv
  have hstep : mdStep value c t = { c with pos := c.pos + tokLength t } := by
    simp only [mdStep]
    rw [if_neg hnc, if_neg hnt]
  have hspec : specMdStep value s t = { s with pos := s.pos + tokLength t } := by
    unfold specMdStep
    rw [if_neg hnt]
  rw [hstep, hspec]
  exact ⟨⟨by simp [hpos], hfolds, hd⟩, rfl⟩

theorem md_foldl_inv (value : List Char) :
    ∀ (ts : List Tok) (c : MdState) (s : SpecMdState),
      noSkip c.levels ts = true →
      (∀ t ∈ ts, ¬ (tokType t = "code".toList ∧ tokAlias t = none)) →
      MdInv c s →
      MdInv (ts.foldl (mdStep value) c) (ts.foldl (specMdStep value) s) := by
  intro ts
  induction ts with
  | nil => intro c s _ _ h; exact h
  | cons t rest ih =>
    intro c s hskip hnc hinv
    simp only [List.foldl_cons]
    have hnct := hnc t (List.mem_cons_self _ _)
    have hnc' := fun x hx => hnc x (List.mem_cons_of_mem _ hx)
    by_cases ht : tokType t = "title".toList
    · simp only [noSkip, if_pos ht, Bool.and_eq_true] at hskip
      obtain ⟨hstep, hlev⟩ := mdStep_title_inv value t c s ht hnct
        (of_decide_eq_true hskip.1) hinv
      exact ih _ _ (by rw [hlev]; exact hskip.2) hnc' hstep
    · simp only [noSkip, if_neg ht] at hskip
      obtain ⟨hstep, hlev⟩ := mdStep_other_inv value t c s ht hnct hinv
      exact ih _ _ (by rw [hlev]; exact hskip) hnc' hstep

/-- C9 amended: for markdown token streams whose headings never skip a level
upward (each title's level is at most one more than the previous title's, the
first being level 0) and which contain no alias-free "code" token, the folds
emitted by markdownFolding are exactly those of the spec walk: a heading at
level L closes exactly the open titles of level ≥ L, each ending at the
trimmed length of the text before the heading, and at end of input every
remaining open title is closed at the trimmed end of the document.  Without
the no-skip condition closeTitles also emits entries for level slots that are
stale or were never opened (see the counterexample). -/
theorem claim9_amended_markdown (value : List Char) (tokens : List Tok)
    (hnc : ∀ t ∈ tokens, ¬ (tokType t = "code".toList ∧ tokAlias t = none))
    (hskip : noSkip none tokens = true) :
    markdownFolding value "markdown".toList tokens = specMarkdownFolds value tokens := by
  unfold markdownFolding
  rw [if_pos (Or.inl rfl)]
  have hinv0 : MdInv ⟨0, fun _ => none, none, []⟩ ⟨0, [], []⟩ :=
    ⟨rfl, rfl, Or.inl ⟨rfl, rfl⟩⟩
  have hinv := md_foldl_inv value tokens ⟨0, fun _ => none, none, []⟩ ⟨0, [], []⟩
    hskip hnc hinv0
  unfold specMarkdownFolds
  dsimp only
  obtain ⟨hpos, hfolds, hd⟩ := hinv
  rcases hd with ⟨hlev, hopen⟩ | ⟨lv, f, hlev, hopens, hot⟩
  · rw [closeTitles_folds_none value _ _ hlev, hopen, hfolds]
    simp
  · rw [closeTitles_folds_some value _ 0 lv hlev, if_pos (Nat.zero_le _),
      hfolds, hopens, hpos, List.map_map]
    congr 1
    have h0 : lv + 1 - 0 = lv + 1 := rfl
    rw [h0]
    apply List.map_congr_left
    intro k hk
    have hk' := List.mem_range.1 hk
    simp only [Function.comp]
    rw [Nat.zero_add, hot k (by omega)]

/-- Counterexample text: a level-1 heading followed by a level-0 heading. -/
def cxVal : List Char := "## B\n# A".toList

/-- Counterexample token stream for "## B\n# A". -/
def cxToks : List Tok :=
  [Tok.node "title".toList none 4 (TokContent.sub
     [Tok.node "punctuation".toList none 2 (TokContent.txt "##".toList),
      Tok.plain " B".toList]),
   Tok.plain "\n".toList,
   Tok.node "title".toList none 3 (TokContent.sub
     [Tok.node "punctuation".toList none 1 (TokContent.txt "#".toList),
      Tok.plain " A".toList])]

/-- Counterexample to C9 as stated: on "## B\n# A" the heading "# A" (level 0)
makes closeTitles walk level slots 0 and 1, but level 0 was never opened, so
a spurious fold with an undefined start is emitted alongside the one for
"## B": the emitted folds are not exactly those of the open titles. -/
theorem claim9_counterexample :
    markdownFolding cxVal "markdown".toList cxToks ≠ specMarkdownFolds cxVal cxToks ∧
      (none, 4) ∈ markdownFolding cxVal "markdown".toList cxToks := by
  exact ⟨by decide, by decide⟩

/-- Witness text for C9 amended: headings at levels 0 then 1, never skipping. -/
def okVal : List Char := "# A\nx\n## B\ny".toList

/-- Witness token stream for "# A\nx\n## B\ny". -/
def okToks : List Tok :=
  [Tok.node "title".toList none 3 (TokContent.sub
     [Tok.node "punctuation".toList none 1 (TokContent.txt "#".toList),
      Tok.plain " A".toList]),
   Tok.plain "\nx\n".toList,
   Tok.node "title".toList none 4 (TokContent.sub
     [Tok.node "punctuation".toList none 2 (TokContent.txt "##".toList),
      Tok.plain " B".toList]),
   Tok.plain "\ny".toList]

/-- Witness for C9 amended at a no-skip stream. -/
theorem claim9_witness :
    markdownFolding okVal "markdown".toList okToks = specMarkdownFolds okVal okToks :=
  claim9_amended_markdown okVal okToks (by decide) (by decide)

end PrismFolding
